import Mathlib

/-!
Shallow embedding of `src/libzlog/zc_hashtable.c` (zlog's generic separate-chaining
hashtable) and proofs about it.

Modelling conventions:
* An intrusive doubly linked bucket chain is modelled as a Lean `List` of entries,
  head first; the `prev`/`next` pointer surgery of the C code corresponds to list
  construction/removal on well-formed chains.
* The opaque `void *` key and value pointers are type parameters `K`, `V`.  A possibly
  NULL key argument at the public interface is `Option K` (`none` = NULL pointer).
* The caller-supplied strategy callbacks (`hash_fn`, `equal_fn`, and whether the
  optional destructors are configured) are packaged in `Strategy` and passed to each
  operation; destructor invocations are recorded in an event list instead of freeing.
* `calloc` outcomes are explicit `Bool` oracles (`true` = allocation succeeds).
* C `unsigned int`/`size_t` arithmetic is `Nat`; the only place where the 2^32
  wraparound of `unsigned int` is observable is the string hash, where it is taken
  explicitly.  The load-factor test `nelem > tab_size * 1.3` (a C `double`
  comparison) is rendered as `10 * nelem > 13 * tab_size`, which agrees with the
  `double` computation for every table size reachable in practice.
-/

set_option autoImplicit false

namespace ZcHashtable

open scoped List

/-- `zc_hashtable_entry_t`: cached hash (`hash_key`), opaque key and value.  The
intrusive `next`/`prev` fields are represented by the entry's position in its
bucket's chain list. -/
structure Entry (K V : Type) where
  hash_key : Nat
  key : K
  value : V
deriving DecidableEq, Repr

/-- `zc_hashtable_t`: the bucket array `tab` (each bucket the chain from its head)
and the live-entry count `nelem`.  The C field `tab_size` always equals the length
of the allocated array and is rendered as `tab.length`. -/
structure Table (K V : Type) where
  tab : List (List (Entry K V))
  nelem : Nat
deriving DecidableEq, Repr

/-- `tab_size` field of the C struct (the capacity). -/
def Table.tab_size {K V : Type} (t : Table K V) : Nat := t.tab.length

/-- The caller-supplied strategy functions fixed at `zc_hashtable_new` time:
`hash_fn` and `equal_fn` are required; `key_del_fn`/`value_del_fn` are the optional
destructors, modelled by whether they are configured (`true` = non-NULL). -/
structure Strategy (K V : Type) where
  hash_fn : K → Nat
  equal_fn : K → K → Bool
  key_del_fn : Bool
  value_del_fn : Bool

/-- A destructor invocation performed by the table (a call to `key_del_fn` or
`value_del_fn` on a stored key/value). -/
inductive DelEvent (K V : Type) where
  | delKey (k : K)
  | delValue (v : V)
deriving DecidableEq, Repr

variable {K V : Type}

/-- The destructor calls the C code performs when it destroys one entry's payload:
`key_del_fn(p->key)` if configured, then `value_del_fn(p->value)` if configured. -/
def entryDelEvents (S : Strategy K V) (e : Entry K V) : List (DelEvent K V) :=
  (if S.key_del_fn then [DelEvent.delKey e.key] else []) ++
  (if S.value_del_fn then [DelEvent.delValue e.value] else [])

/-- Number of entries stored across all bucket chains. -/
def totalCount (tab : List (List (Entry K V))) : Nat :=
  (tab.map List.length).sum

/-- Head-push of entry `e` onto bucket `j` (the `tab[j]->prev = p; p->next = tab[j];
tab[j] = p` sequence of the C code). -/
def pushHead (tab : List (List (Entry K V))) (j : Nat) (e : Entry K V) :
    List (List (Entry K V)) :=
  tab.set j (e :: tab.getD j [])

/-- The entry-relinking loop of `zc_hashtable_rehash`, over the stream `es` of
entries in old-table walking order (ascending bucket, chain head first). -/
def rehashFold (s2 : Nat) (acc : List (List (Entry K V))) (es : List (Entry K V)) :
    List (List (Entry K V)) :=
  es.foldl (fun a e => pushHead a (e.hash_key % s2) e) acc

/-- An empty table of `n` buckets, as produced by the two successful `calloc`s of
`zc_hashtable_new`. -/
def newD (n : Nat) : Table K V :=
  ⟨List.replicate n [], 0⟩

/-- `zc_hashtable_new`: rejects a zero size (`zc_assert(a_size, NULL)`); allocation
is assumed to succeed (an allocation failure returns NULL before any table
exists, so it is not part of any table's state).  `hash_fn`/`equal_fn` are required
by `zc_assert` but total in this embedding. -/
def zc_hashtable_new (a_size : Nat) : Option (Table K V) :=
  if a_size = 0 then none else some (newD a_size)

/-- `zc_hashtable_clean`: destroys every entry (emitting its destructor events in
bucket order, chain order), resets every bucket head to NULL and `nelem` to 0.
The capacity is unchanged. -/
def zc_hashtable_clean (S : Strategy K V) (t : Table K V) :
    Table K V × List (DelEvent K V) :=
  (⟨List.replicate t.tab.length [], 0⟩,
   (t.tab.map (fun chain => (chain.map (entryDelEvents S)).flatten)).flatten)

/-- `zc_hashtable_rehash`: on allocation success, allocates a zeroed bucket array of
twice the size and walks the old buckets in ascending index order, each chain from
its head, relinking every entry (with `next`/`prev` cleared) at the head of new
bucket `hash_key % tab_size`; `nelem` is untouched.  On allocation failure
returns `-1` (`none`) without having modified the table.  Note that the strategy
functions are not even a parameter: the cached `hash_key` alone determines the new
bucket. -/
def zc_hashtable_rehash (t : Table K V) (allocOk : Bool) : Option (Table K V) :=
  if allocOk then
    let tab_size := 2 * t.tab.length
    some ⟨t.tab.foldl
            (fun acc chain => chain.foldl (fun a e => pushHead a (e.hash_key % tab_size) e) acc)
            (List.replicate tab_size []),
          t.nelem⟩
  else none

/-- The chain scan shared by `zc_hashtable_get_entry`, `zc_hashtable_put` and
`zc_hashtable_remove`: first entry `p` of the chain with `equal_fn(a_key, p->key)`. -/
def chainFind (equal_fn : K → K → Bool) (a_key : K) (chain : List (Entry K V)) :
    Option (Entry K V) :=
  chain.find? (fun e => equal_fn a_key e.key)

/-- `zc_hashtable_get_entry`: NULL key is rejected by `zc_assert` (returns NULL);
otherwise scans bucket `hash_fn(a_key) % tab_size` for the first `equal_fn` match. -/
def zc_hashtable_get_entry (S : Strategy K V) (t : Table K V) (a_key : Option K) :
    Option (Entry K V) :=
  match a_key with
  | none => none
  | some k => chainFind S.equal_fn k (t.tab.getD (S.hash_fn k % t.tab.length) [])

/-- `zc_hashtable_get`: `p ? p->value : NULL`. -/
def zc_hashtable_get (S : Strategy K V) (t : Table K V) (a_key : Option K) : Option V :=
  (zc_hashtable_get_entry S t a_key).map Entry.value

/-- In-place update of the first matching entry of a chain (`p->key = a_key;
p->value = a_value;` in the update branch of `zc_hashtable_put`): the cached hash
and the chain position are untouched. -/
def chainUpdate (equal_fn : K → K → Bool) (a_key : K) (a_value : V) :
    List (Entry K V) → List (Entry K V)
  | [] => []
  | e :: rest =>
    if equal_fn a_key e.key then ⟨e.hash_key, a_key, a_value⟩ :: rest
    else e :: chainUpdate equal_fn a_key a_value rest

/-- Result of `zc_hashtable_put`: the C return code (`0` ok, `-1` error), the table
state after the call, and the destructor calls made. -/
structure PutOut (K V : Type) where
  rc : Int
  table : Table K V
  dels : List (DelEvent K V)
deriving DecidableEq, Repr

/-- The insert tail of `zc_hashtable_put` (after the not-found branch's optional
rehash): `calloc` a fresh entry (failure returns `-1` with the table as it stands),
cache `hash_fn(a_key)`, store key/value, head-push into bucket
`hash_key % tab_size` (recomputed against the current, possibly rehashed, size),
increment `nelem`. -/
def putInsert (S : Strategy K V) (t : Table K V) (a_key : K) (a_value : V)
    (entryAllocOk : Bool) : PutOut K V :=
  if entryAllocOk then
    let h := S.hash_fn a_key
    let i := h % t.tab.length
    ⟨0, ⟨t.tab.set i (⟨h, a_key, a_value⟩ :: t.tab.getD i []), t.nelem + 1⟩, []⟩
  else ⟨-1, t, []⟩

/-- `zc_hashtable_put`.  NULL key is rejected by `zc_assert` (returns `-1`).
Otherwise scan bucket `hash_fn(a_key) % tab_size`:
* found: run the configured destructors on the old key and value, overwrite
  `p->key`/`p->value`, return `0` (count unchanged, no rehash);
* not found: if `nelem > tab_size * 1.3` (checked on the count *before* this
  insert; rendered as `10 * nelem > 13 * tab_size`), rehash first — a rehash
  allocation failure aborts the put with `-1`; then run the insert tail. -/
def zc_hashtable_put (S : Strategy K V) (t : Table K V) (a_key : Option K)
    (a_value : V) (rehashAllocOk entryAllocOk : Bool) : PutOut K V :=
  match a_key with
  | none => ⟨-1, t, []⟩
  | some k =>
    let i := S.hash_fn k % t.tab.length
    match chainFind S.equal_fn k (t.tab.getD i []) with
    | some p =>
      ⟨0, { t with tab := t.tab.set i (chainUpdate S.equal_fn k a_value (t.tab.getD i [])) },
       entryDelEvents S p⟩
    | none =>
      if 10 * t.nelem > 13 * t.tab.length then
        match zc_hashtable_rehash t rehashAllocOk with
        | none => ⟨-1, t, []⟩
        | some t1 => putInsert S t1 k a_value entryAllocOk
      else
        putInsert S t k a_value entryAllocOk

/-- Removal of the first matching entry from a chain (the `prev`/`next` unlink of
`zc_hashtable_remove` on a well-formed chain). -/
def chainRemoveFirst (equal_fn : K → K → Bool) (a_key : K) :
    List (Entry K V) → List (Entry K V)
  | [] => []
  | e :: rest =>
    if equal_fn a_key e.key then rest else e :: chainRemoveFirst equal_fn a_key rest

/-- `zc_hashtable_remove`.  NULL key is rejected by `zc_assert` (returns with no
effect).  Otherwise scan bucket `hash_fn(a_key) % tab_size`; if no match, log and
return with no effect.  If the first match `p` is found: run the configured
destructors, unlink it and decrement `nelem`.  When `p` is the chain head
(`p->prev == NULL`) the C code writes `p->next` into bucket
`p->hash_key % tab_size` — the bucket index re-derived from the *cached* hash,
which coincides with the scanned bucket exactly on tables satisfying the bucket
invariant (on other states the C code corrupts memory, which is outside this
model). -/
def zc_hashtable_remove (S : Strategy K V) (t : Table K V) (a_key : Option K) :
    Table K V × List (DelEvent K V) :=
  match a_key with
  | none => (t, [])
  | some k =>
    let i := S.hash_fn k % t.tab.length
    let chain := t.tab.getD i []
    match chainFind S.equal_fn k chain with
    | none => (t, [])
    | some p =>
      match chain with
      | [] => (t, [])
      | e :: rest =>
        if S.equal_fn k e.key then
          (⟨t.tab.set (p.hash_key % t.tab.length) rest, t.nelem - 1⟩, entryDelEvents S p)
        else
          (⟨t.tab.set i (chainRemoveFirst S.equal_fn k chain), t.nelem - 1⟩,
           entryDelEvents S p)

/-- The scan of `zc_hashtable_begin` restated on a list of buckets: head of the
first non-empty bucket. -/
def beginFrom : List (List (Entry K V)) → Option (Entry K V)
  | [] => none
  | [] :: rest => beginFrom rest
  | (e :: _) :: _ => some e

/-- `zc_hashtable_begin`: first entry of the first non-empty bucket, or NULL. -/
def zc_hashtable_begin (t : Table K V) : Option (Entry K V) :=
  beginFrom t.tab

/-- `a_entry->next` in the list model: the successor of (the unique occurrence of)
`a_entry` within its chain, if any. -/
def chainNext [DecidableEq K] [DecidableEq V] (a_entry : Entry K V) :
    List (Entry K V) → Option (Entry K V)
  | [] => none
  | e :: rest => if e = a_entry then rest.head? else chainNext a_entry rest

/-- `zc_hashtable_next`: returns `a_entry->next` if non-NULL; otherwise derives the
entry's bucket index from its *cached* hash (`i = a_entry->hash_key % tab_size`)
and returns the head of the first non-empty later bucket, or NULL at the end. -/
def zc_hashtable_next [DecidableEq K] [DecidableEq V] (t : Table K V)
    (a_entry : Entry K V) : Option (Entry K V) :=
  match chainNext a_entry (t.tab.getD (a_entry.hash_key % t.tab.length) []) with
  | some e => some e
  | none => beginFrom (t.tab.drop (a_entry.hash_key % t.tab.length + 1))

/-- The iteration protocol of the C API: `zc_hashtable_begin`, then repeated
`zc_hashtable_next`; `iterSeq t n` is the `n`-th entry the caller sees (`none`
once the iteration has ended). -/
def iterSeq [DecidableEq K] [DecidableEq V] (t : Table K V) : Nat → Option (Entry K V)
  | 0 => zc_hashtable_begin t
  | n + 1 =>
    match iterSeq t n with
    | none => none
    | some e => zc_hashtable_next t e

/-- `zc_hashtable_str_hash` on the bytes of a NUL-terminated C string (the list
holds the byte values, each in `1..255`, before the terminator).  The C source
reads the bytes through `const char *`; on the library's primary targets
(x86/Linux) plain `char` is signed, so a byte `b ≥ 128` is sign-extended before
the cast to `unsigned int` and contributes `b - 256` modulo `2^32`.  The
accumulator is `unsigned int`: every step is taken modulo `2^32`. -/
def charToUInt (b : Nat) : Nat :=
  if b < 128 then b else (2 ^ 32 + b) - 256

/-- The accumulation loop of `zc_hashtable_str_hash`: `h = h * 129 + (unsigned int)(*p++)`. -/
def strHashLoop (h : Nat) : List Nat → Nat
  | [] => h
  | b :: rest => strHashLoop ((h * 129 + charToUInt b) % 2 ^ 32) rest

/-- `zc_hashtable_str_hash`: polynomial accumulation starting from `h = 0`. -/
def zc_hashtable_str_hash (s : List Nat) : Nat :=
  strHashLoop 0 s

/-- The spec's description of the string hash ("h = 0; for each byte b:
h = h*129 + b", all arithmetic modulo `2^32`), written from the spec's words for
comparison with `zc_hashtable_str_hash`. -/
def specStrHash (s : List Nat) : Nat :=
  s.foldl (fun h b => (h * 129 + b) % 2 ^ 32) 0

/-- First data-model invariant of the spec: `nelem` equals the number of entries
reachable by walking all bucket chains. -/
def countWf (t : Table K V) : Prop :=
  t.nelem = totalCount t.tab

/-- Second data-model invariant of the spec: every entry's cached hash, reduced
modulo the current capacity, is the index of the bucket chain holding it. -/
def bucketsWf (t : Table K V) : Prop :=
  ∀ j, j < t.tab.length → ∀ e ∈ t.tab.getD j [], e.hash_key % t.tab.length = j

/-- A well-formed table: positive capacity plus the two spec invariants. -/
def WfTable (t : Table K V) : Prop :=
  0 < t.tab.length ∧ countWf t ∧ bucketsWf t

/-- Every entry's cached hash is the hash of its stored key (holds in every
reachable state when `hash_fn` respects `equal_fn`, since an update overwrites the
key with an `equal_fn`-equal one and keeps the cached hash). -/
def cachedWf (S : Strategy K V) (t : Table K V) : Prop :=
  ∀ j, j < t.tab.length → ∀ e ∈ t.tab.getD j [], e.hash_key = S.hash_fn e.key

/-- `hash_fn` assigns equal hashes to keys judged equal by `equal_fn`. -/
def HashEqCompat (S : Strategy K V) : Prop :=
  ∀ k1 k2, S.equal_fn k1 k2 = true → S.hash_fn k1 = S.hash_fn k2

/-- Concrete strategy over `Nat` keys/values: identity hash, `Nat` equality, no
destructors configured. -/
def S0 : Strategy Nat Nat :=
  ⟨fun k => k, fun a b => a == b, false, false⟩

/-- Concrete strategy over `Nat` keys/values: identity hash, `Nat` equality, both
destructors configured. -/
def SD : Strategy Nat Nat :=
  ⟨fun k => k, fun a b => a == b, true, true⟩

/-- One successful `zc_hashtable_put` of key `k` (with value `k`) under `S0`. -/
def exPut (t : Table Nat Nat) (k : Nat) : Table Nat Nat :=
  (zc_hashtable_put S0 t (some k) k true true).table

/-- The spec's own example trace: `New(4, ...)` followed by five distinct-key puts. -/
def exFive : Table Nat Nat :=
  exPut (exPut (exPut (exPut (exPut (newD 4) 0) 1) 2) 3) 4

/-- A two-entry table of capacity 1 built by puts (its next fresh-key put is above
the load-factor threshold). -/
def exC2 : Table Nat Nat :=
  exPut (exPut (newD 1) 10) 11

/-- A table built by puts whose third insert triggers a rehash that merges the two
hash-0-mod-2 entries into one bucket in oldest-first order. -/
def exC7 : Table Nat Nat :=
  exPut (exPut (exPut (newD 1) 0) 2) 1

/-- A concrete well-formed table of capacity 4 holding 6 entries (above the
load-factor threshold for the next fresh-key put). -/
def tW : Table Nat Nat :=
  ⟨[[⟨0, 0, 0⟩, ⟨4, 4, 4⟩], [⟨1, 1, 1⟩, ⟨5, 5, 5⟩], [⟨2, 2, 2⟩], [⟨3, 3, 3⟩]], 6⟩

/-- A small concrete well-formed table of capacity 2 with entries for keys 0 and 1. -/
def tU : Table Nat Nat :=
  ⟨[[⟨0, 0, 7⟩], [⟨1, 1, 8⟩]], 2⟩

instance (t : Table K V) : Decidable (countWf t) := by
  unfold countWf; exact inferInstance

instance (t : Table K V) : Decidable (bucketsWf t) := by
  unfold bucketsWf; exact inferInstance

instance (t : Table K V) : Decidable (WfTable t) := by
  unfold WfTable; exact inferInstance

instance (S : Strategy K V) (t : Table K V) : Decidable (cachedWf S t) := by
  unfold cachedWf; exact inferInstance

/-! ### Helper lemmas on lists, buckets and `totalCount` -/

theorem getD_set_self {α : Type} (l : List α) (j : Nat) (a d : α) (h : j < l.length) :
    (l.set j a).getD j d = a := by
  simp [List.getD_eq_getElem?_getD, List.getElem?_set_self h]

theorem getD_set_ne {α : Type} (l : List α) {i j : Nat} (h : j ≠ i) (a d : α) :
    (l.set j a).getD i d = l.getD i d := by
  simp [List.getD_eq_getElem?_getD, List.getElem?_set_ne h]

theorem mem_flatten_of_getD {tab : List (List (Entry K V))} {j : Nat}
    (hj : j < tab.length) {e : Entry K V} (he : e ∈ tab.getD j []) :
    e ∈ tab.flatten := by
  have hg : tab.getD j [] = tab[j] := by
    simp [List.getD_eq_getElem?_getD, List.getElem?_eq_getElem hj]
  exact List.mem_flatten_of_mem (List.getElem_mem hj) (hg ▸ he)

theorem getD_of_mem_flatten {tab : List (List (Entry K V))} {e : Entry K V}
    (he : e ∈ tab.flatten) : ∃ j, j < tab.length ∧ e ∈ tab.getD j [] := by
  rcases List.mem_flatten.1 he with ⟨l, hl, hel⟩
  rcases List.getElem_of_mem hl with ⟨j, hj, rfl⟩
  refine ⟨j, hj, ?_⟩
  simpa [List.getD_eq_getElem?_getD, List.getElem?_eq_getElem hj] using hel

theorem length_pushHead (tab : List (List (Entry K V))) (j : Nat) (e : Entry K V) :
    (pushHead tab j e).length = tab.length := by
  simp [pushHead]

theorem getD_pushHead_self (tab : List (List (Entry K V))) (j : Nat) (e : Entry K V)
    (h : j < tab.length) : (pushHead tab j e).getD j [] = e :: tab.getD j [] :=
  getD_set_self tab j (e :: tab.getD j []) [] h

theorem getD_pushHead_ne (tab : List (List (Entry K V))) {i j : Nat} (e : Entry K V)
    (h : j ≠ i) : (pushHead tab j e).getD i [] = tab.getD i [] :=
  getD_set_ne tab h (e :: tab.getD j []) []

theorem totalCount_set (tab : List (List (Entry K V))) (j : Nat)
    (c : List (Entry K V)) (h : j < tab.length) :
    totalCount (tab.set j c) + (tab.getD j []).length = totalCount tab + c.length := by
  induction tab generalizing j with
  | nil => simp at h
  | cons x rest ih =>
    cases j with
    | zero => simp [totalCount]; omega
    | succ j =>
      have := ih j (by simpa using h)
      simp [totalCount] at this ⊢
      omega

theorem totalCount_pushHead (tab : List (List (Entry K V))) (j : Nat) (e : Entry K V)
    (h : j < tab.length) : totalCount (pushHead tab j e) = totalCount tab + 1 := by
  have hs := totalCount_set tab j (e :: tab.getD j []) h
  simp [pushHead] at hs ⊢
  omega

theorem flatten_pushHead_perm (tab : List (List (Entry K V))) (j : Nat) (e : Entry K V)
    (h : j < tab.length) :
    List.Perm (pushHead tab j e).flatten (e :: tab.flatten) := by
  induction tab generalizing j with
  | nil => simp at h
  | cons x rest ih =>
    cases j with
    | zero => simp [pushHead]
    | succ j =>
      have hrec := ih j (by simpa using h)
      have hstep : pushHead (x :: rest) (j + 1) e = x :: pushHead rest j e := by
        simp [pushHead]
      rw [hstep]
      calc (x :: pushHead rest j e).flatten
          = x ++ (pushHead rest j e).flatten := by simp
        _ ~ x ++ (e :: rest.flatten) := hrec.append_left x
        _ ~ e :: (x ++ rest.flatten) := List.perm_middle
        _ = e :: (x :: rest).flatten := by simp

theorem getD_replicate_nil {α : Type} (n j : Nat) :
    (List.replicate n ([] : List α)).getD j [] = [] := by
  simp [List.getD_eq_getElem?_getD, List.getElem?_replicate]
  split <;> rfl

theorem totalCount_replicate_nil (n : Nat) :
    totalCount (List.replicate n ([] : List (Entry K V))) = 0 := by
  induction n with
  | zero => rfl
  | succ n ih => simp [totalCount, List.replicate_succ] at ih ⊢

theorem flatten_replicate_nil {α : Type} (n : Nat) :
    (List.replicate n ([] : List α)).flatten = [] := by
  induction n with
  | zero => rfl
  | succ n ih => simp [List.replicate_succ, ih]

/-! ### The rehash loop -/

theorem rehashFold_nil (s2 : Nat) (acc : List (List (Entry K V))) :
    rehashFold s2 acc [] = acc := rfl

theorem rehashFold_cons (s2 : Nat) (acc : List (List (Entry K V))) (e : Entry K V)
    (es : List (Entry K V)) :
    rehashFold s2 acc (e :: es) = rehashFold s2 (pushHead acc (e.hash_key % s2) e) es := rfl

theorem rehashFold_length (s2 : Nat) (acc : List (List (Entry K V)))
    (es : List (Entry K V)) : (rehashFold s2 acc es).length = acc.length := by
  induction es generalizing acc with
  | nil => rfl
  | cons e rest ih => rw [rehashFold_cons, ih, length_pushHead]

theorem rehashFold_getD (s2 : Nat) (acc : List (List (Entry K V)))
    (es : List (Entry K V)) (hlen : acc.length = s2) {j : Nat} (hj : j < s2) :
    (rehashFold s2 acc es).getD j [] =
      (es.filter (fun e => e.hash_key % s2 == j)).reverse ++ acc.getD j [] := by
  induction es generalizing acc with
  | nil => simp [rehashFold_nil]
  | cons e rest ih =>
    rw [rehashFold_cons, ih (pushHead acc (e.hash_key % s2) e) (by rw [length_pushHead, hlen])]
    by_cases hc : e.hash_key % s2 = j
    · rw [hc, getD_pushHead_self acc j e (by omega)]
      simp [List.filter_cons, hc]
    · rw [getD_pushHead_ne acc e hc]
      simp [List.filter_cons, hc]

theorem rehashFold_totalCount (s2 : Nat) (acc : List (List (Entry K V)))
    (es : List (Entry K V)) (hlen : acc.length = s2) (hs : 0 < s2) :
    totalCount (rehashFold s2 acc es) = totalCount acc + es.length := by
  induction es generalizing acc with
  | nil => simp [rehashFold_nil]
  | cons e rest ih =>
    rw [rehashFold_cons, ih (pushHead acc (e.hash_key % s2) e) (by rw [length_pushHead, hlen]),
      totalCount_pushHead acc _ e (by rw [hlen]; exact Nat.mod_lt _ hs)]
    simp
    omega

theorem rehashFold_flatten_perm (s2 : Nat) (acc : List (List (Entry K V)))
    (es : List (Entry K V)) (hlen : acc.length = s2) (hs : 0 < s2) :
    List.Perm (rehashFold s2 acc es).flatten (es ++ acc.flatten) := by
  induction es generalizing acc with
  | nil => simp [rehashFold_nil]
  | cons e rest ih =>
    rw [rehashFold_cons]
    calc (rehashFold s2 (pushHead acc (e.hash_key % s2) e) rest).flatten
        ~ rest ++ (pushHead acc (e.hash_key % s2) e).flatten :=
          ih (pushHead acc (e.hash_key % s2) e) (by rw [length_pushHead, hlen])
      _ ~ rest ++ (e :: acc.flatten) :=
          (flatten_pushHead_perm acc _ e (by rw [hlen]; exact Nat.mod_lt _ hs)).append_left rest
      _ ~ e :: (rest ++ acc.flatten) := List.perm_middle
      _ = (e :: rest) ++ acc.flatten := by simp

theorem rehash_eq (t : Table K V) :
    zc_hashtable_rehash t true =
      some ⟨rehashFold (2 * t.tab.length) (List.replicate (2 * t.tab.length) [])
              t.tab.flatten,
            t.nelem⟩ := by
  simp [zc_hashtable_rehash, rehashFold, List.foldl_flatten]

theorem rehash_alloc_fail (t : Table K V) : zc_hashtable_rehash t false = none := rfl

theorem rehash_tab_length {t t' : Table K V} (h : zc_hashtable_rehash t true = some t') :
    t'.tab.length = 2 * t.tab.length := by
  rw [rehash_eq] at h
  cases h
  simp [rehashFold_length]

theorem rehash_nelem {t t' : Table K V} (h : zc_hashtable_rehash t true = some t') :
    t'.nelem = t.nelem := by
  rw [rehash_eq] at h
  cases h
  rfl

theorem rehash_bucket {t t' : Table K V} (h : zc_hashtable_rehash t true = some t')
    {j : Nat} (hj : j < 2 * t.tab.length) :
    t'.tab.getD j [] =
      (t.tab.flatten.filter (fun e => e.hash_key % (2 * t.tab.length) == j)).reverse := by
  rw [rehash_eq] at h
  cases h
  rw [rehashFold_getD _ _ _ (by simp) hj, getD_replicate_nil, List.append_nil]

theorem rehash_flatten_perm {t t' : Table K V} (h : zc_hashtable_rehash t true = some t') :
    List.Perm t'.tab.flatten t.tab.flatten := by
  rcases Nat.eq_zero_or_pos t.tab.length with hL | hL
  · rw [rehash_eq] at h
    cases h
    rcases List.length_eq_zero.1 hL with htab
    simp [htab, rehashFold_nil, flatten_replicate_nil]
  · rw [rehash_eq] at h
    cases h
    have := rehashFold_flatten_perm (2 * t.tab.length)
      (List.replicate (2 * t.tab.length) []) t.tab.flatten (by simp) (by omega)
    simpa [flatten_replicate_nil] using this

theorem rehash_mem {t t' : Table K V} (h : zc_hashtable_rehash t true = some t')
    {e : Entry K V} (he : e ∈ t.tab.flatten) :
    e ∈ t'.tab.getD (e.hash_key % (2 * t.tab.length)) [] := by
  have hL : 0 < t.tab.length := by
    rcases getD_of_mem_flatten he with ⟨j, hj, -⟩
    omega
  rw [rehash_bucket h (Nat.mod_lt _ (by omega))]
  rw [List.mem_reverse, List.mem_filter]
  exact ⟨he, by simp⟩

theorem rehash_bucketsWf {t t' : Table K V} (h : zc_hashtable_rehash t true = some t') :
    bucketsWf t' := by
  intro j hj e he
  rw [rehash_tab_length h] at hj ⊢
  rw [rehash_bucket h hj] at he
  rcases List.mem_filter.1 (List.mem_reverse.1 he) with ⟨-, hpred⟩
  simpa using hpred

theorem rehash_countWf {t t' : Table K V} (h : zc_hashtable_rehash t true = some t')
    (hc : countWf t) : countWf t' := by
  have hp := rehash_flatten_perm h
  have h1 : t'.nelem = t.nelem := rehash_nelem h
  have h2 : totalCount t'.tab = totalCount t.tab := by
    have := hp.length_eq
    simpa [totalCount, List.length_flatten] using this
  unfold countWf at hc ⊢
  omega

/-! ### Chain scans: `chainFind`, `chainUpdate`, `chainRemoveFirst` -/

theorem chainFind_eq_none {equal_fn : K → K → Bool} {k : K} {chain : List (Entry K V)} :
    chainFind equal_fn k chain = none ↔ ∀ e ∈ chain, ¬ equal_fn k e.key = true := by
  simp [chainFind, List.find?_eq_none]

theorem chainFind_some {equal_fn : K → K → Bool} {k : K} {chain : List (Entry K V)}
    {p : Entry K V} (h : chainFind equal_fn k chain = some p) :
    p ∈ chain ∧ equal_fn k p.key = true := by
  simp only [chainFind] at h
  have h2 := List.find?_some h
  exact ⟨List.mem_of_find?_eq_some h, by simpa using h2⟩

theorem chainFind_isSome {equal_fn : K → K → Bool} {k : K} {chain : List (Entry K V)} :
    (chainFind equal_fn k chain).isSome = true ↔ ∃ e ∈ chain, equal_fn k e.key = true := by
  simp [chainFind, List.find?_isSome]

theorem chainFind_split {equal_fn : K → K → Bool} {k : K} (pre post : List (Entry K V))
    (p : Entry K V) (hpre : ∀ e ∈ pre, ¬ equal_fn k e.key = true)
    (hp : equal_fn k p.key = true) :
    chainFind equal_fn k (pre ++ p :: post) = some p := by
  have h1 : List.find? (fun e => equal_fn k e.key) pre = none :=
    List.find?_eq_none.2 (by simpa using hpre)
  unfold chainFind
  rw [List.find?_append, h1, List.find?_cons_of_pos _ (by simpa using hp)]
  rfl

theorem chainUpdate_split {equal_fn : K → K → Bool} {k : K} (v : V)
    (pre post : List (Entry K V)) (p : Entry K V)
    (hpre : ∀ e ∈ pre, ¬ equal_fn k e.key = true) (hp : equal_fn k p.key = true) :
    chainUpdate equal_fn k v (pre ++ p :: post) =
      pre ++ ⟨p.hash_key, k, v⟩ :: post := by
  induction pre with
  | nil => simp [chainUpdate, hp]
  | cons x rest ih =>
    have hx : ¬ equal_fn k x.key = true := hpre x (by simp)
    have hstep : chainUpdate equal_fn k v ((x :: rest) ++ p :: post)
        = x :: chainUpdate equal_fn k v (rest ++ p :: post) := by
      simp [chainUpdate, hx]
    rw [hstep, ih (fun e he => hpre e (by simp [he]))]
    simp

theorem chainUpdate_length (equal_fn : K → K → Bool) (k : K) (v : V)
    (chain : List (Entry K V)) :
    (chainUpdate equal_fn k v chain).length = chain.length := by
  induction chain with
  | nil => rfl
  | cons x rest ih =>
    by_cases hx : equal_fn k x.key = true <;> simp [chainUpdate, hx, ih]

theorem chainUpdate_hash_mem {equal_fn : K → K → Bool} {k : K} {v : V}
    {chain : List (Entry K V)} {e : Entry K V}
    (he : e ∈ chainUpdate equal_fn k v chain) :
    ∃ e0 ∈ chain, e.hash_key = e0.hash_key := by
  induction chain with
  | nil => simp [chainUpdate] at he
  | cons x rest ih =>
    by_cases hx : equal_fn k x.key = true
    · simp only [chainUpdate, if_pos hx, List.mem_cons] at he
      rcases he with rfl | he
      · exact ⟨x, by simp⟩
      · exact ⟨e, by simp [he]⟩
    · simp only [chainUpdate, if_neg hx, List.mem_cons] at he
      rcases he with rfl | he
      · exact ⟨e, by simp⟩
      · rcases ih he with ⟨e0, he0, hh⟩
        exact ⟨e0, by simp [he0], hh⟩

theorem chainRemoveFirst_split {equal_fn : K → K → Bool} {k : K}
    (pre post : List (Entry K V)) (p : Entry K V)
    (hpre : ∀ e ∈ pre, ¬ equal_fn k e.key = true) (hp : equal_fn k p.key = true) :
    chainRemoveFirst equal_fn k (pre ++ p :: post) = pre ++ post := by
  induction pre with
  | nil => simp [chainRemoveFirst, hp]
  | cons x rest ih =>
    have hx : ¬ equal_fn k x.key = true := hpre x (by simp)
    have hstep : chainRemoveFirst equal_fn k ((x :: rest) ++ p :: post)
        = x :: chainRemoveFirst equal_fn k (rest ++ p :: post) := by
      simp [chainRemoveFirst, hx]
    rw [hstep, ih (fun e he => hpre e (by simp [he]))]
    simp

theorem chainRemoveFirst_subset {equal_fn : K → K → Bool} {k : K}
    {chain : List (Entry K V)} {e : Entry K V}
    (he : e ∈ chainRemoveFirst equal_fn k chain) : e ∈ chain := by
  induction chain with
  | nil => simp [chainRemoveFirst] at he
  | cons x rest ih =>
    by_cases hx : equal_fn k x.key = true
    · simp only [chainRemoveFirst, if_pos hx] at he
      exact List.mem_cons_of_mem x he
    · simp only [chainRemoveFirst, if_neg hx, List.mem_cons] at he
      rcases he with rfl | he
      · simp
      · exact List.mem_cons_of_mem x (ih he)

theorem chainRemoveFirst_length {equal_fn : K → K → Bool} {k : K}
    {chain : List (Entry K V)} {p : Entry K V}
    (h : chainFind equal_fn k chain = some p) :
    (chainRemoveFirst equal_fn k chain).length + 1 = chain.length := by
  induction chain with
  | nil => simp [chainFind] at h
  | cons x rest ih =>
    by_cases hx : equal_fn k x.key = true
    · simp [chainRemoveFirst, hx]
    · rw [chainFind] at h
      rw [List.find?_cons_of_neg _ (by simp [hx])] at h
      simp [chainRemoveFirst, hx, ih h]

theorem chainRemoveFirst_countP {equal_fn : K → K → Bool} {k : K}
    {chain : List (Entry K V)} {p : Entry K V}
    (h : chainFind equal_fn k chain = some p) :
    (chainRemoveFirst equal_fn k chain).countP (fun e => equal_fn k e.key) + 1 =
      chain.countP (fun e => equal_fn k e.key) := by
  induction chain with
  | nil => simp [chainFind] at h
  | cons x rest ih =>
    by_cases hx : equal_fn k x.key = true
    · simp [chainRemoveFirst, hx, List.countP_cons_of_pos]
    · rw [chainFind] at h
      rw [List.find?_cons_of_neg _ (by simp [hx])] at h
      simp only [chainRemoveFirst, if_neg hx]
      rw [List.countP_cons_of_neg _ _ (by simp [hx]),
        List.countP_cons_of_neg _ _ (by simp [hx])]
      exact ih h

/-! ### Unfolding equations for `zc_hashtable_put` and `zc_hashtable_remove` -/

theorem put_none (S : Strategy K V) (t : Table K V) (v : V) (ra ea : Bool) :
    zc_hashtable_put S t none v ra ea = ⟨-1, t, []⟩ := rfl

theorem putInsert_ok (S : Strategy K V) (t : Table K V) (k : K) (v : V) :
    putInsert S t k v true =
      ⟨0, ⟨t.tab.set (S.hash_fn k % t.tab.length)
             (⟨S.hash_fn k, k, v⟩ :: t.tab.getD (S.hash_fn k % t.tab.length) []),
           t.nelem + 1⟩, []⟩ := rfl

theorem putInsert_fail (S : Strategy K V) (t : Table K V) (k : K) (v : V) :
    putInsert S t k v false = ⟨-1, t, []⟩ := rfl

theorem put_found (S : Strategy K V) (t : Table K V) (k : K) (v : V) {p : Entry K V}
    (hfind : chainFind S.equal_fn k (t.tab.getD (S.hash_fn k % t.tab.length) []) = some p)
    (ra ea : Bool) :
    zc_hashtable_put S t (some k) v ra ea =
      ⟨0, ⟨t.tab.set (S.hash_fn k % t.tab.length)
             (chainUpdate S.equal_fn k v (t.tab.getD (S.hash_fn k % t.tab.length) [])),
           t.nelem⟩,
       entryDelEvents S p⟩ := by
  simp only [zc_hashtable_put]
  rw [hfind]

theorem put_notfound_norehash (S : Strategy K V) (t : Table K V) (k : K) (v : V)
    (hfind : chainFind S.equal_fn k (t.tab.getD (S.hash_fn k % t.tab.length) []) = none)
    (hth : ¬ 10 * t.nelem > 13 * t.tab.length) (ra ea : Bool) :
    zc_hashtable_put S t (some k) v ra ea = putInsert S t k v ea := by
  simp only [zc_hashtable_put]
  rw [hfind, if_neg hth]

theorem put_notfound_rehash_fail (S : Strategy K V) (t : Table K V) (k : K) (v : V)
    (hfind : chainFind S.equal_fn k (t.tab.getD (S.hash_fn k % t.tab.length) []) = none)
    (hth : 10 * t.nelem > 13 * t.tab.length) (ea : Bool) :
    zc_hashtable_put S t (some k) v false ea = ⟨-1, t, []⟩ := by
  simp only [zc_hashtable_put]
  rw [hfind, if_pos hth, rehash_alloc_fail]

theorem put_notfound_rehash_ok (S : Strategy K V) (t : Table K V) (k : K) (v : V)
    (hfind : chainFind S.equal_fn k (t.tab.getD (S.hash_fn k % t.tab.length) []) = none)
    (hth : 10 * t.nelem > 13 * t.tab.length) {t1 : Table K V}
    (hre : zc_hashtable_rehash t true = some t1) (ea : Bool) :
    zc_hashtable_put S t (some k) v true ea = putInsert S t1 k v ea := by
  simp only [zc_hashtable_put]
  rw [hfind, if_pos hth, hre]

theorem remove_none (S : Strategy K V) (t : Table K V) :
    zc_hashtable_remove S t none = (t, []) := rfl

theorem remove_notfound (S : Strategy K V) (t : Table K V) (k : K)
    (hfind : chainFind S.equal_fn k (t.tab.getD (S.hash_fn k % t.tab.length) []) = none) :
    zc_hashtable_remove S t (some k) = (t, []) := by
  simp only [zc_hashtable_remove]
  rw [hfind]

theorem remove_found (S : Strategy K V) (t : Table K V) (k : K) {p : Entry K V}
    (hfind : chainFind S.equal_fn k (t.tab.getD (S.hash_fn k % t.tab.length) []) = some p)
    (hL : 0 < t.tab.length) (hb : bucketsWf t) :
    zc_hashtable_remove S t (some k) =
      (⟨t.tab.set (S.hash_fn k % t.tab.length)
          (chainRemoveFirst S.equal_fn k (t.tab.getD (S.hash_fn k % t.tab.length) [])),
        t.nelem - 1⟩,
       entryDelEvents S p) := by
  have hpi : p.hash_key % t.tab.length = S.hash_fn k % t.tab.length :=
    hb _ (Nat.mod_lt _ hL) p (chainFind_some hfind).1
  simp only [zc_hashtable_remove]
  rw [hfind]
  rcases hchain : t.tab.getD (S.hash_fn k % t.tab.length) [] with - | ⟨e, rest⟩
  · rw [hchain] at hfind
    simp [chainFind] at hfind
  · rw [hchain] at hfind
    by_cases he : S.equal_fn k e.key = true
    · have hpe : p = e := by
        unfold chainFind at hfind
        rw [List.find?_cons_of_pos _ (by simpa using he)] at hfind
        exact (Option.some.inj hfind).symm
      dsimp only
      rw [if_pos he, hpi, hpe]
      have hcr : chainRemoveFirst S.equal_fn k (e :: rest) = rest := by
        simp [chainRemoveFirst, he]
      rw [hcr]
    · dsimp only
      rw [if_neg he]

/-! ### Invariant preservation -/

theorem bucketsWf_set (t : Table K V) (m : Nat) {i : Nat} (hi : i < t.tab.length)
    {c : List (Entry K V)} (hb : bucketsWf t)
    (hc : ∀ e ∈ c, e.hash_key % t.tab.length = i) :
    bucketsWf (⟨t.tab.set i c, m⟩ : Table K V) := by
  intro j hj e he
  simp only [List.length_set] at hj ⊢
  by_cases hij : i = j
  · subst hij
    rw [getD_set_self _ _ _ _ hi] at he
    exact hc e he
  · rw [getD_set_ne _ hij _ _] at he
    exact hb j hj e he

theorem wf_new (n : Nat) (t : Table K V) (h : zc_hashtable_new n = some t) :
    WfTable t := by
  unfold zc_hashtable_new at h
  by_cases hn : n = 0
  · rw [if_pos hn] at h
    cases h
  · rw [if_neg hn] at h
    cases h
    refine ⟨by simpa [newD] using Nat.pos_of_ne_zero hn, ?_, ?_⟩
    · unfold countWf newD
      simp [totalCount_replicate_nil]
    · intro j hj e he
      unfold newD at he
      simp only at he
      rw [getD_replicate_nil] at he
      simp at he

theorem wf_rehash {t t' : Table K V} (hwf : WfTable t)
    (h : zc_hashtable_rehash t true = some t') : WfTable t' := by
  refine ⟨?_, rehash_countWf h hwf.2.1, rehash_bucketsWf h⟩
  rw [rehash_tab_length h]
  have := hwf.1
  omega

theorem wf_putInsert (S : Strategy K V) {t : Table K V} (hwf : WfTable t) (k : K)
    (v : V) (ea : Bool) : WfTable (putInsert S t k v ea).table := by
  cases ea with
  | false => exact hwf
  | true =>
    rw [putInsert_ok]
    dsimp only
    have hL : 0 < t.tab.length := hwf.1
    have hi : S.hash_fn k % t.tab.length < t.tab.length := Nat.mod_lt _ hL
    refine ⟨by simpa using hL, ?_, ?_⟩
    · have hs := totalCount_set t.tab (S.hash_fn k % t.tab.length)
        (⟨S.hash_fn k, k, v⟩ :: t.tab.getD (S.hash_fn k % t.tab.length) []) hi
      have hc := hwf.2.1
      unfold countWf at hc ⊢
      dsimp only
      simp only [List.length_cons] at hs
      omega
    · refine bucketsWf_set t _ hi hwf.2.2 ?_
      intro e he
      rcases List.mem_cons.1 he with rfl | he
      · rfl
      · exact hwf.2.2 _ hi e he

theorem wf_put (S : Strategy K V) {t : Table K V} (hwf : WfTable t) (k : Option K)
    (v : V) (ra ea : Bool) : WfTable (zc_hashtable_put S t k v ra ea).table := by
  cases k with
  | none => exact hwf
  | some k =>
    rcases hfind : chainFind S.equal_fn k (t.tab.getD (S.hash_fn k % t.tab.length) [])
      with - | p
    · by_cases hth : 10 * t.nelem > 13 * t.tab.length
      · cases ra with
        | false =>
          rw [put_notfound_rehash_fail S t k v hfind hth ea]
          exact hwf
        | true =>
          obtain ⟨t1, hre⟩ : ∃ t1, zc_hashtable_rehash t true = some t1 :=
            ⟨_, rehash_eq t⟩
          rw [put_notfound_rehash_ok S t k v hfind hth hre ea]
          exact wf_putInsert S (wf_rehash hwf hre) k v ea
      · rw [put_notfound_norehash S t k v hfind hth ra ea]
        exact wf_putInsert S hwf k v ea
    · rw [put_found S t k v hfind ra ea]
      dsimp only
      have hL : 0 < t.tab.length := hwf.1
      have hi : S.hash_fn k % t.tab.length < t.tab.length := Nat.mod_lt _ hL
      refine ⟨by simpa using hL, ?_, ?_⟩
      · have hs := totalCount_set t.tab (S.hash_fn k % t.tab.length)
          (chainUpdate S.equal_fn k v (t.tab.getD (S.hash_fn k % t.tab.length) [])) hi
        rw [chainUpdate_length] at hs
        have hc := hwf.2.1
        unfold countWf at hc ⊢
        dsimp only
        omega
      · refine bucketsWf_set t _ hi hwf.2.2 ?_
        intro e he
        rcases chainUpdate_hash_mem he with ⟨e0, he0, hh⟩
        rw [hh]
        exact hwf.2.2 _ hi e0 he0

theorem wf_remove (S : Strategy K V) {t : Table K V} (hwf : WfTable t) (k : Option K) :
    WfTable (zc_hashtable_remove S t k).1 := by
  cases k with
  | none => exact hwf
  | some k =>
    rcases hfind : chainFind S.equal_fn k (t.tab.getD (S.hash_fn k % t.tab.length) [])
      with - | p
    · rw [remove_notfound S t k hfind]
      exact hwf
    · rw [remove_found S t k hfind hwf.1 hwf.2.2]
      dsimp only
      have hL : 0 < t.tab.length := hwf.1
      have hi : S.hash_fn k % t.tab.length < t.tab.length := Nat.mod_lt _ hL
      refine ⟨by simpa using hL, ?_, ?_⟩
      · have hs := totalCount_set t.tab (S.hash_fn k % t.tab.length)
          (chainRemoveFirst S.equal_fn k (t.tab.getD (S.hash_fn k % t.tab.length) [])) hi
        have hlen := chainRemoveFirst_length hfind
        have hc := hwf.2.1
        unfold countWf at hc ⊢
        dsimp only
        omega
      · refine bucketsWf_set t _ hi hwf.2.2 ?_
        intro e he
        exact hwf.2.2 _ hi e (chainRemoveFirst_subset he)

theorem getD_length_le_totalCount (tab : List (List (Entry K V))) {j : Nat}
    (hj : j < tab.length) : (tab.getD j []).length ≤ totalCount tab := by
  induction tab generalizing j with
  | nil => simp at hj
  | cons x rest ih =>
    cases j with
    | zero => simp [totalCount]
    | succ j =>
      have := ih (by simpa using hj)
      simp [totalCount] at this ⊢
      omega

theorem strHashLoop_ascii (s : List Nat) :
    (∀ b ∈ s, b < 128) →
      ∀ h : Nat, strHashLoop h s = s.foldl (fun a b => (a * 129 + b) % 2 ^ 32) h := by
  induction s with
  | nil => intro _ h; rfl
  | cons b rest ih =>
    intro hs h
    have hb : b < 128 := hs b (by simp)
    simp only [strHashLoop, List.foldl_cons]
    rw [show charToUInt b = b from if_pos hb]
    exact ih (fun x hx => hs x (List.mem_cons_of_mem b hx)) _

/-! ### Iteration -/

theorem beginFrom_eq (cs : List (List (Entry K V))) : beginFrom cs = cs.flatten.head? := by
  induction cs with
  | nil => rfl
  | cons c rest ih =>
    cases c with
    | nil => simpa [beginFrom] using ih
    | cons e es => simp [beginFrom]

theorem chainNext_spec [DecidableEq K] [DecidableEq V] {C : List (Entry K V)}
    (hnd : C.Nodup) {q : Nat} {e : Entry K V} (hq : C[q]? = some e) :
    chainNext e C = C[q + 1]? := by
  induction C generalizing q with
  | nil => simp at hq
  | cons x rest ih =>
    cases q with
    | zero =>
      simp only [List.getElem?_cons_zero] at hq
      cases hq
      simp [chainNext, List.head?_eq_getElem?]
    | succ q =>
      simp only [List.getElem?_cons_succ] at hq
      have he : e ∈ rest := List.getElem?_mem hq
      have hxe : ¬ x = e := by
        intro hcontra
        subst hcontra
        exact (List.nodup_cons.1 hnd).1 he
      simp only [chainNext, if_neg hxe, List.getElem?_cons_succ]
      exact ih (List.nodup_cons.1 hnd).2 hq

theorem next_eq_flatten_succ [DecidableEq K] [DecidableEq V] {t : Table K V}
    (hb : bucketsWf t) (hnd : t.tab.flatten.Nodup) {n : Nat} {e : Entry K V}
    (hn : t.tab.flatten[n]? = some e) :
    zc_hashtable_next t e = t.tab.flatten[n + 1]? := by
  have hmem : e ∈ t.tab.flatten := List.getElem?_mem hn
  rcases getD_of_mem_flatten hmem with ⟨i, hi, hei⟩
  have hhash : e.hash_key % t.tab.length = i := hb i hi e hei
  have hgetD : t.tab.getD i [] = t.tab[i] := by
    simp [List.getD_eq_getElem?_getD, List.getElem?_eq_getElem hi]
  have hsplit : t.tab = t.tab.take i ++ t.tab[i] :: t.tab.drop (i + 1) := by
    conv_lhs => rw [← List.take_append_drop i t.tab]
    rw [List.drop_eq_getElem_cons hi]
  have hflat : t.tab.flatten =
      (t.tab.take i).flatten ++ (t.tab[i] ++ (t.tab.drop (i + 1)).flatten) := by
    conv_lhs => rw [hsplit]
    rw [List.flatten_append, List.flatten_cons]
  have heC : e ∈ t.tab[i] := hgetD ▸ hei
  rcases List.getElem_of_mem heC with ⟨q, hql, hqe⟩
  have hq : (t.tab[i])[q]? = some e := by simp [List.getElem?_eq_getElem hql, hqe]
  have hqflat : t.tab.flatten[(t.tab.take i).flatten.length + q]? = some e := by
    rw [hflat, List.getElem?_append_right (Nat.le_add_right _ _)]
    rw [Nat.add_sub_cancel_left]
    rw [List.getElem?_append_left hql]
    exact hq
  have hnlt : n < t.tab.flatten.length := (List.getElem?_eq_some_iff.1 hn).1
  have hneq : n = (t.tab.take i).flatten.length + q :=
    List.getElem?_inj hnlt hnd (hn.trans hqflat.symm)
  have hndC : (t.tab[i]).Nodup := by
    rw [hflat] at hnd
    exact (List.Nodup.of_append_right hnd).of_append_left
  unfold zc_hashtable_next
  rw [hhash, hgetD, chainNext_spec hndC hq]
  by_cases hlt : q + 1 < (t.tab[i]).length
  · rw [List.getElem?_eq_getElem hlt]
    rw [hflat, hneq]
    rw [List.getElem?_append_right (by omega : (t.tab.take i).flatten.length ≤
      (t.tab.take i).flatten.length + q + 1)]
    rw [show (t.tab.take i).flatten.length + q + 1 - (t.tab.take i).flatten.length
      = q + 1 by omega]
    rw [List.getElem?_append_left hlt]
    simp [List.getElem?_eq_getElem hlt]
  · have hqend : q + 1 = (t.tab[i]).length := by omega
    rw [List.getElem?_eq_none (by omega)]
    rw [hflat, hneq]
    rw [List.getElem?_append_right (by omega : (t.tab.take i).flatten.length ≤
      (t.tab.take i).flatten.length + q + 1)]
    rw [show (t.tab.take i).flatten.length + q + 1 - (t.tab.take i).flatten.length
      = q + 1 by omega]
    rw [List.getElem?_append_right (by omega : (t.tab[i]).length ≤ q + 1)]
    rw [hqend]
    rw [Nat.sub_self]
    rw [beginFrom_eq, List.head?_eq_getElem?]

theorem iterSeq_eq_flatten [DecidableEq K] [DecidableEq V] {t : Table K V}
    (hb : bucketsWf t) (hnd : t.tab.flatten.Nodup) (n : Nat) :
    iterSeq t n = t.tab.flatten[n]? := by
  induction n with
  | zero =>
    simp [iterSeq, zc_hashtable_begin, beginFrom_eq, List.head?_eq_getElem?]
  | succ n ih =>
    rw [iterSeq, ih]
    cases hn : t.tab.flatten[n]? with
    | none =>
      have hlen : t.tab.flatten.length ≤ n := by
        by_contra hcontra
        push_neg at hcontra
        simp [List.getElem?_eq_getElem hcontra] at hn
      rw [List.getElem?_eq_none (by omega)]
    | some e => exact next_eq_flatten_succ hb hnd hn

theorem wf_clean (S : Strategy K V) {t : Table K V} (hwf : WfTable t) :
    WfTable (zc_hashtable_clean S t).1 := by
  refine ⟨by simpa [zc_hashtable_clean] using hwf.1, ?_, ?_⟩
  · unfold countWf zc_hashtable_clean
    simp [totalCount_replicate_nil]
  · intro j hj e he
    unfold zc_hashtable_clean at he
    simp only at he
    rw [getD_replicate_nil] at he
    simp at he

/-! ### Concrete strategy facts used by the witnesses -/

theorem compat_S0 : HashEqCompat S0 := by
  intro a b h
  simp only [S0] at h ⊢
  exact beq_iff_eq.mp h

theorem compat_SD : HashEqCompat SD := by
  intro a b h
  simp only [SD] at h ⊢
  exact beq_iff_eq.mp h

/-! ### Claim theorems -/

/-- C3 (confirmed): a successful rehash exactly doubles the capacity, leaves
`nelem` unchanged, and relinks every entry at the head of new bucket
`hash_key % new_capacity`: each new bucket holds exactly the old-walk-order
entries whose cached hash selects it, reversed (head-push order), so every entry
present before the rehash is present after it (the flattened tables are
permutations).  That `hash_fn` is never invoked is visible in the embedding's
type: `zc_hashtable_rehash` takes no strategy argument at all, only the cached
`hash_key` fields. -/
theorem rehash_doubles_and_preserves_entries (t : Table K V) :
    ∃ t', zc_hashtable_rehash t true = some t' ∧
      t'.tab.length = 2 * t.tab.length ∧
      t'.nelem = t.nelem ∧
      (∀ j, j < 2 * t.tab.length →
        t'.tab.getD j [] =
          (t.tab.flatten.filter (fun e => e.hash_key % (2 * t.tab.length) == j)).reverse) ∧
      (∀ e, e ∈ t.tab.flatten → e ∈ t'.tab.flatten) ∧
      List.Perm t'.tab.flatten t.tab.flatten := by
  refine ⟨_, rehash_eq t, rehash_tab_length (rehash_eq t), rehash_nelem (rehash_eq t),
    fun j hj => rehash_bucket (rehash_eq t) hj, ?_, rehash_flatten_perm (rehash_eq t)⟩
  intro e he
  exact (rehash_flatten_perm (rehash_eq t)).mem_iff.2 he

/-- C4 (confirmed): assuming `hash_fn` assigns equal hashes to keys judged equal
by `equal_fn`, every operation — `New`, `Put` (all alloc outcomes, NULL key
included), `Remove`, `Clean` and a successful rehash — preserves the two
data-model invariants packaged in `WfTable`: `nelem` equals the number of
entries reachable through the bucket chains, and every entry's cached hash
modulo the current capacity is the index of its bucket. -/
theorem ops_preserve_invariants (S : Strategy K V) (hcompat : HashEqCompat S) :
    (∀ (n : Nat) (t : Table K V), zc_hashtable_new n = some t → WfTable t) ∧
    (∀ (t : Table K V) (k : Option K) (v : V) (ra ea : Bool), WfTable t →
      WfTable (zc_hashtable_put S t k v ra ea).table) ∧
    (∀ (t : Table K V) (k : Option K), WfTable t →
      WfTable (zc_hashtable_remove S t k).1) ∧
    (∀ t : Table K V, WfTable t → WfTable (zc_hashtable_clean S t).1) ∧
    (∀ (t t' : Table K V), WfTable t → zc_hashtable_rehash t true = some t' →
      WfTable t') := by
  have := hcompat
  exact ⟨wf_new, fun t k v ra ea hwf => wf_put S hwf k v ra ea,
    fun t k hwf => wf_remove S hwf k, fun t hwf => wf_clean S hwf,
    fun t t' hwf h => wf_rehash hwf h⟩

/-- Witness for C4: the hypotheses hold at the concrete strategy `S0` and table
`tW`, and the put-preservation conjunct yields well-formedness of a concrete
post-put table. -/
theorem ops_preserve_invariants_witness :
    HashEqCompat S0 ∧ WfTable tW ∧
      WfTable (zc_hashtable_put S0 tW (some 10) 7 true true).table :=
  ⟨compat_S0, by decide,
    (ops_preserve_invariants S0 compat_S0).2.1 tW (some 10) 7 true true (by decide)⟩

/-- C8 (corrected): the string hash equals the spec's polynomial accumulator
`h = h*129 + b (mod 2^32)` exactly when every byte of the string is below 128.
The C source reads the string through `const char *` and casts each `char` to
`unsigned int`; with the signed `char` of the library's mainstream targets a
byte `b ≥ 128` is sign-extended and contributes `b - 256` modulo `2^32`, not
`b` (refuted at the single-byte string `[200]` by
`str_hash_high_byte_diverges`). -/
theorem str_hash_matches_spec_on_ascii (s : List Nat) (hascii : ∀ b ∈ s, b < 128) :
    zc_hashtable_str_hash s = specStrHash s :=
  strHashLoop_ascii s hascii 0

/-- Counterexample for C8: on the one-byte string with byte value 200 the code
computes `(200 - 256) mod 2^32 = 4294967240`, while the spec's formula gives
`200`. -/
theorem str_hash_high_byte_diverges :
    zc_hashtable_str_hash [200] = 4294967240 ∧ specStrHash [200] = 200 ∧
      ¬ zc_hashtable_str_hash [200] = specStrHash [200] := by
  refine ⟨by decide, by decide, by decide⟩

/-- Witness for C8: the amended theorem applied to the ASCII string "hi". -/
theorem str_hash_matches_spec_on_ascii_witness :
    (∀ b ∈ [104, 105], b < 128) ∧
      zc_hashtable_str_hash [104, 105] = specStrHash [104, 105] :=
  ⟨by decide, str_hash_matches_spec_on_ascii [104, 105] (by decide)⟩

/-- C10 (confirmed): a NULL key is rejected by `zc_assert` at every public entry
point without touching the table: `GetEntry`/`Get` return NULL, `Put` returns
`-1` with the table unchanged and no destructor run, and `Remove` returns with
no effect.  (`zc_assert` itself lives in `zc_defs.h`, outside the given source;
its return-the-default behaviour is modelled from the spec.) -/
theorem null_key_rejected (S : Strategy K V) (t : Table K V) (v : V) (ra ea : Bool) :
    zc_hashtable_get_entry S t none = none ∧
    zc_hashtable_get S t none = none ∧
    zc_hashtable_put S t none v ra ea = ⟨-1, t, []⟩ ∧
    zc_hashtable_remove S t none = (t, []) :=
  ⟨rfl, rfl, rfl, rfl⟩

/-- C1 (corrected): `zc_hashtable_put` checks `nelem > tab_size * 1.3` on the
count *before* the insert, so the rehash fires on the Put of a fresh key made
while the table is already above threshold — not on the Put that first pushes
the count above it.  When it fires (with allocation succeeding), the capacity
exactly doubles, the count goes up by one, and every key that was retrievable
before the Put is still retrievable after it (assuming `hash_fn` respects
`equal_fn` and the cached-hash/bucket invariants of reachable states). -/
theorem put_above_threshold_doubles_capacity (S : Strategy K V) {t : Table K V}
    (k : K) (v : V) (hwf : WfTable t) (hcached : cachedWf S t)
    (hcompat : HashEqCompat S)
    (habsent : zc_hashtable_get_entry S t (some k) = none)
    (hth : 10 * t.nelem > 13 * t.tab.length) :
    (zc_hashtable_put S t (some k) v true true).rc = 0 ∧
    (zc_hashtable_put S t (some k) v true true).table.tab.length =
      2 * t.tab.length ∧
    (zc_hashtable_put S t (some k) v true true).table.nelem = t.nelem + 1 ∧
    (∀ k2, (zc_hashtable_get_entry S t (some k2)).isSome = true →
      (zc_hashtable_get_entry S (zc_hashtable_put S t (some k) v true true).table
        (some k2)).isSome = true) := by
  have hL : 0 < t.tab.length := hwf.1
  have hfind : chainFind S.equal_fn k
      (t.tab.getD (S.hash_fn k % t.tab.length) []) = none := habsent
  obtain ⟨t1, hre⟩ : ∃ t1, zc_hashtable_rehash t true = some t1 := ⟨_, rehash_eq t⟩
  have hlen1 : t1.tab.length = 2 * t.tab.length := rehash_tab_length hre
  have hL1 : 0 < t1.tab.length := by omega
  rw [put_notfound_rehash_ok S t k v hfind hth hre true, putInsert_ok]
  dsimp only
  refine ⟨rfl, ?_, ?_, ?_⟩
  · rw [List.length_set]
    exact hlen1
  · rw [rehash_nelem hre]
  · intro k2 hk2
    have hk2e : ∃ e ∈ t.tab.getD (S.hash_fn k2 % t.tab.length) [],
        S.equal_fn k2 e.key = true := chainFind_isSome.1 hk2
    obtain ⟨e, he, heq⟩ := hk2e
    have hmem : e ∈ t.tab.flatten := mem_flatten_of_getD (Nat.mod_lt _ hL) he
    have hhash2 : e.hash_key = S.hash_fn k2 := by
      have h1 : e.hash_key = S.hash_fn e.key := hcached _ (Nat.mod_lt _ hL) e he
      rw [h1]
      exact (hcompat k2 e.key heq).symm
    have hmem1 : e ∈ t1.tab.getD (e.hash_key % t1.tab.length) [] := by
      rw [hlen1]
      exact rehash_mem hre hmem
    show (chainFind S.equal_fn k2 _).isSome = true
    apply chainFind_isSome.2
    simp only [List.length_set]
    by_cases hcase : S.hash_fn k % t1.tab.length = S.hash_fn k2 % t1.tab.length
    · rw [← hcase, getD_set_self _ _ _ _ (Nat.mod_lt _ hL1)]
      refine ⟨e, ?_, heq⟩
      apply List.mem_cons_of_mem
      rw [hcase, ← hhash2]
      exact hmem1
    · rw [getD_set_ne _ hcase]
      refine ⟨e, ?_, heq⟩
      rw [← hhash2]
      exact hmem1

/-- Counterexample for C1: the spec's own trace.  Starting from `New(4, ...)` and
inserting five distinct keys (0..4, identity hash), the count reaches
5 > 4 * 1.3, yet the capacity stays 4 (the claim says it becomes 8): the
threshold was compared against the pre-insert count 4. -/
theorem five_inserts_do_not_double_capacity :
    exFive.nelem = 5 ∧ exFive.tab_size = 4 ∧ ¬ exFive.tab_size = 8 := by
  refine ⟨by decide, by decide, by decide⟩

/-- Witness for C1: the amended theorem applied at `S0` and the concrete
6-entry capacity-4 table `tW` with the fresh key 10. -/
theorem put_above_threshold_doubles_capacity_witness :
    (WfTable tW ∧ cachedWf S0 tW ∧ zc_hashtable_get_entry S0 tW (some 10) = none ∧
      10 * tW.nelem > 13 * tW.tab.length) ∧
    (zc_hashtable_put S0 tW (some 10) 10 true true).table.tab.length =
      2 * tW.tab.length :=
  ⟨⟨by decide, by decide, by decide, by decide⟩,
    (put_above_threshold_doubles_capacity S0 10 10 (by decide) (by decide) compat_S0
      (by decide) (by decide)).2.1⟩

/-- C2 (corrected): a `Put` that fails on the *rehash* allocation, or on the
entry allocation when no rehash was triggered, leaves the table exactly as it
was (and runs no destructor).  But when the rehash succeeds and the subsequent
entry allocation fails, the C code has already committed the rehash: the Put
still returns `-1`, adds no entry and keeps `nelem` and the entry population
(as a multiset) unchanged, yet the capacity has doubled — the table is *not*
left exactly as it was before the Put. -/
theorem put_alloc_failure_effects (S : Strategy K V) {t : Table K V} (k : K) (v : V)
    (habsent : zc_hashtable_get_entry S t (some k) = none) :
    (10 * t.nelem > 13 * t.tab.length →
      ∀ ea, zc_hashtable_put S t (some k) v false ea = ⟨-1, t, []⟩) ∧
    (¬ 10 * t.nelem > 13 * t.tab.length →
      ∀ ra, zc_hashtable_put S t (some k) v ra false = ⟨-1, t, []⟩) ∧
    (10 * t.nelem > 13 * t.tab.length →
      (zc_hashtable_put S t (some k) v true false).rc = -1 ∧
      (zc_hashtable_put S t (some k) v true false).dels = [] ∧
      (zc_hashtable_put S t (some k) v true false).table.nelem = t.nelem ∧
      (zc_hashtable_put S t (some k) v true false).table.tab.length =
        2 * t.tab.length ∧
      List.Perm (zc_hashtable_put S t (some k) v true false).table.tab.flatten
        t.tab.flatten) := by
  have hfind : chainFind S.equal_fn k
      (t.tab.getD (S.hash_fn k % t.tab.length) []) = none := habsent
  refine ⟨?_, ?_, ?_⟩
  · intro hth ea
    exact put_notfound_rehash_fail S t k v hfind hth ea
  · intro hth ra
    rw [put_notfound_norehash S t k v hfind hth ra false, putInsert_fail]
  · intro hth
    obtain ⟨t1, hre⟩ : ∃ t1, zc_hashtable_rehash t true = some t1 := ⟨_, rehash_eq t⟩
    rw [put_notfound_rehash_ok S t k v hfind hth hre false, putInsert_fail]
    exact ⟨rfl, rfl, rehash_nelem hre, rehash_tab_length hre, rehash_flatten_perm hre⟩

/-- Counterexample for C2: on the capacity-1 table `exC2` holding keys 10 and 11
(built by puts), a Put of fresh key 12 whose rehash allocation succeeds and
whose entry allocation fails returns `-1` but leaves a table with capacity 2
instead of 1: the table is not "exactly as it was before the Put". -/
theorem put_entry_alloc_failure_after_rehash_changes_table :
    (zc_hashtable_put S0 exC2 (some 12) 12 true false).rc = -1 ∧
    ¬ (zc_hashtable_put S0 exC2 (some 12) 12 true false).table = exC2 ∧
    (zc_hashtable_put S0 exC2 (some 12) 12 true false).table.tab_size = 2 ∧
    exC2.tab_size = 1 := by
  refine ⟨by decide, by decide, by decide, by decide⟩

/-- Witness for C2: the amended theorem's rehash-persists conjunct applied at
`S0`, the concrete table `tW` and fresh key 10. -/
theorem put_alloc_failure_effects_witness :
    (zc_hashtable_get_entry S0 tW (some 10) = none ∧
      10 * tW.nelem > 13 * tW.tab.length) ∧
    ((zc_hashtable_put S0 tW (some 10) 10 true false).rc = -1 ∧
      (zc_hashtable_put S0 tW (some 10) 10 true false).table.tab.length =
        2 * tW.tab.length) :=
  ⟨⟨by decide, by decide⟩,
    ⟨((put_alloc_failure_effects S0 10 10 (by decide)).2.2 (by decide)).1,
      ((put_alloc_failure_effects S0 10 10 (by decide)).2.2 (by decide)).2.2.2.1⟩⟩

/-- C5 (confirmed): a `Put` whose key is judged equal by `equal_fn` to the key of
an existing entry runs the configured key destructor exactly once on the old
stored key and the configured value destructor exactly once on the old stored
value (the emitted destructor-call list is exactly those two calls, in that
order), overwrites the entry's key and value in place, keeps `nelem` unchanged
and returns 0. -/
theorem put_update_runs_destructors_once (S : Strategy K V) {t : Table K V} (k : K)
    (v : V) {p : Entry K V} (hkd : S.key_del_fn = true) (hvd : S.value_del_fn = true)
    (hfound : zc_hashtable_get_entry S t (some k) = some p) (ra ea : Bool) :
    (zc_hashtable_put S t (some k) v ra ea).rc = 0 ∧
    (zc_hashtable_put S t (some k) v ra ea).table.nelem = t.nelem ∧
    (zc_hashtable_put S t (some k) v ra ea).dels =
      [DelEvent.delKey p.key, DelEvent.delValue p.value] ∧
    (∀ pre post, t.tab.getD (S.hash_fn k % t.tab.length) [] = pre ++ p :: post →
      (∀ e ∈ pre, ¬ S.equal_fn k e.key = true) →
      (zc_hashtable_put S t (some k) v ra ea).table.tab.getD
          (S.hash_fn k % t.tab.length) [] =
        pre ++ (⟨p.hash_key, k, v⟩ : Entry K V) :: post) := by
  have hfind : chainFind S.equal_fn k
      (t.tab.getD (S.hash_fn k % t.tab.length) []) = some p := hfound
  have hp := chainFind_some hfind
  have hL : 0 < t.tab.length := by
    rcases Nat.eq_zero_or_pos t.tab.length with h0 | h
    · exfalso
      have htab : t.tab = [] := List.length_eq_zero.1 h0
      rw [htab] at hp
      simp [List.getD_eq_getElem?_getD] at hp
    · exact h
  rw [put_found S t k v hfind ra ea]
  dsimp only
  refine ⟨rfl, rfl, ?_, ?_⟩
  · simp [entryDelEvents, hkd, hvd]
  · intro pre post hchain hpre
    rw [getD_set_self _ _ _ _ (Nat.mod_lt _ hL), hchain]
    exact chainUpdate_split v pre post p hpre hp.2

/-- Witness for C5: at the concrete strategy `SD` (both destructors configured)
and table `tU`, updating key 0 emits exactly one key-destructor call on the old
key and one value-destructor call on the old value 7, and succeeds. -/
theorem put_update_runs_destructors_once_witness :
    (SD.key_del_fn = true ∧ SD.value_del_fn = true ∧
      zc_hashtable_get_entry SD tU (some 0) = some ⟨0, 0, 7⟩) ∧
    ((zc_hashtable_put SD tU (some 0) 99 true true).rc = 0 ∧
      (zc_hashtable_put SD tU (some 0) 99 true true).dels =
        [DelEvent.delKey 0, DelEvent.delValue 7]) :=
  ⟨⟨by decide, by decide, by decide⟩,
    ⟨(@put_update_runs_destructors_once Nat Nat SD tU 0 99 ⟨0, 0, 7⟩ (by decide)
        (by decide) (by decide) true true).1,
      (@put_update_runs_destructors_once Nat Nat SD tU 0 99 ⟨0, 0, 7⟩ (by decide)
        (by decide) (by decide) true true).2.2.1⟩⟩

/-- C9 (confirmed): the update path of `Put` is frame-exact: the capacity and
count are unchanged, every bucket other than the matched one is untouched, and
within the matched bucket the entry is replaced in place — same position (so
its `next`/`prev` links are untouched), same cached hash `p.hash_key` — with
only its key and value fields overwritten; the entries before and after it in
the chain are unchanged. -/
theorem put_update_frame (S : Strategy K V) {t : Table K V} (k : K) (v : V)
    {p : Entry K V} (hfound : zc_hashtable_get_entry S t (some k) = some p)
    (ra ea : Bool) :
    (zc_hashtable_put S t (some k) v ra ea).table.tab.length = t.tab.length ∧
    (zc_hashtable_put S t (some k) v ra ea).table.nelem = t.nelem ∧
    (∀ j, ¬ j = S.hash_fn k % t.tab.length →
      (zc_hashtable_put S t (some k) v ra ea).table.tab.getD j [] =
        t.tab.getD j []) ∧
    (∀ pre post, t.tab.getD (S.hash_fn k % t.tab.length) [] = pre ++ p :: post →
      (∀ e ∈ pre, ¬ S.equal_fn k e.key = true) →
      (zc_hashtable_put S t (some k) v ra ea).table.tab.getD
          (S.hash_fn k % t.tab.length) [] =
        pre ++ (⟨p.hash_key, k, v⟩ : Entry K V) :: post) := by
  have hfind : chainFind S.equal_fn k
      (t.tab.getD (S.hash_fn k % t.tab.length) []) = some p := hfound
  have hp := chainFind_some hfind
  have hL : 0 < t.tab.length := by
    rcases Nat.eq_zero_or_pos t.tab.length with h0 | h
    · exfalso
      have htab : t.tab = [] := List.length_eq_zero.1 h0
      rw [htab] at hp
      simp [List.getD_eq_getElem?_getD] at hp
    · exact h
  rw [put_found S t k v hfind ra ea]
  dsimp only
  refine ⟨by rw [List.length_set], rfl, ?_, ?_⟩
  · intro j hj
    exact getD_set_ne _ (fun hh => hj hh.symm) _ _
  · intro pre post hchain hpre
    rw [getD_set_self _ _ _ _ (Nat.mod_lt _ hL), hchain]
    exact chainUpdate_split v pre post p hpre hp.2

/-- Witness for C9: updating key 1 of the concrete table `tU` leaves bucket 0
untouched and keeps capacity and count. -/
theorem put_update_frame_witness :
    (zc_hashtable_get_entry SD tU (some 1) = some ⟨1, 1, 8⟩) ∧
    ((zc_hashtable_put SD tU (some 1) 42 true true).table.tab.length =
        tU.tab.length ∧
      (zc_hashtable_put SD tU (some 1) 42 true true).table.tab.getD 0 [] =
        tU.tab.getD 0 []) :=
  ⟨by decide,
    ⟨(@put_update_frame Nat Nat SD tU 1 42 ⟨1, 1, 8⟩ (by decide) true true).1,
      (@put_update_frame Nat Nat SD tU 1 42 ⟨1, 1, 8⟩ (by decide) true
        true).2.2.1 0 (by decide)⟩⟩

/-- C6 (confirmed): removing a present key `k` (with at most one matching entry
in its bucket, as in every state reachable with a hash/equality-consistent
strategy) unlinks exactly the found entry: the count decreases by exactly one,
a subsequent `Get(k)` returns NULL, the configured destructors run on that
entry, the capacity and all other buckets are untouched, and the matched bucket
loses exactly the first matching entry.  Removing an absent key returns with no
effect at all (and this is not an error: the return type has no error case). -/
theorem remove_present_or_absent (S : Strategy K V) {t : Table K V} (k : K)
    (hwf : WfTable t) :
    (∀ p, zc_hashtable_get_entry S t (some k) = some p →
      (t.tab.getD (S.hash_fn k % t.tab.length) []).countP
          (fun e => S.equal_fn k e.key) ≤ 1 →
      (zc_hashtable_remove S t (some k)).1.nelem + 1 = t.nelem ∧
      zc_hashtable_get S (zc_hashtable_remove S t (some k)).1 (some k) = none ∧
      (zc_hashtable_remove S t (some k)).2 = entryDelEvents S p ∧
      (zc_hashtable_remove S t (some k)).1.tab.length = t.tab.length ∧
      (∀ j, ¬ j = S.hash_fn k % t.tab.length →
        (zc_hashtable_remove S t (some k)).1.tab.getD j [] = t.tab.getD j []) ∧
      (zc_hashtable_remove S t (some k)).1.tab.getD
          (S.hash_fn k % t.tab.length) [] =
        chainRemoveFirst S.equal_fn k
          (t.tab.getD (S.hash_fn k % t.tab.length) [])) ∧
    (zc_hashtable_get_entry S t (some k) = none →
      zc_hashtable_remove S t (some k) = (t, [])) := by
  constructor
  · intro p hfound huniq
    have hfind : chainFind S.equal_fn k
        (t.tab.getD (S.hash_fn k % t.tab.length) []) = some p := hfound
    have hL : 0 < t.tab.length := hwf.1
    have hi : S.hash_fn k % t.tab.length < t.tab.length := Nat.mod_lt _ hL
    have hp := chainFind_some hfind
    have hcrf := chainRemoveFirst_countP hfind
    have hzero : (chainRemoveFirst S.equal_fn k
        (t.tab.getD (S.hash_fn k % t.tab.length) [])).countP
          (fun e => S.equal_fn k e.key) = 0 := by omega
    have hlen := chainRemoveFirst_length hfind
    have hle := getD_length_le_totalCount t.tab hi
    have hc := hwf.2.1
    unfold countWf at hc
    have hchainpos : 0 < (t.tab.getD (S.hash_fn k % t.tab.length) []).length :=
      List.length_pos.2 (List.ne_nil_of_mem hp.1)
    rw [remove_found S t k hfind hL hwf.2.2]
    dsimp only
    have hgetnone : chainFind S.equal_fn k
        (chainRemoveFirst S.equal_fn k
          (t.tab.getD (S.hash_fn k % t.tab.length) [])) = none := by
      apply chainFind_eq_none.2
      intro e he
      have := List.countP_eq_zero.1 hzero e he
      simpa using this
    refine ⟨by omega, ?_, rfl, by rw [List.length_set], ?_, ?_⟩
    · unfold zc_hashtable_get
      have hge : zc_hashtable_get_entry S
          (⟨t.tab.set (S.hash_fn k % t.tab.length)
              (chainRemoveFirst S.equal_fn k
                (t.tab.getD (S.hash_fn k % t.tab.length) [])),
            t.nelem - 1⟩ : Table K V) (some k) = none := by
        show chainFind S.equal_fn k _ = none
        simp only [List.length_set]
        rw [getD_set_self _ _ _ _ hi]
        exact hgetnone
      rw [hge]
      rfl
    · intro j hj
      exact getD_set_ne _ (fun hh => hj hh.symm) _ _
    · exact getD_set_self _ _ _ _ hi
  · intro habsent
    exact remove_notfound S t k habsent

/-- Witness for C6: removing the present key 1 from the concrete table `tU`
decrements the count to 1 and makes `Get(1)` return NULL. -/
theorem remove_present_or_absent_witness :
    (WfTable tU ∧ zc_hashtable_get_entry SD tU (some 1) = some ⟨1, 1, 8⟩ ∧
      (tU.tab.getD (SD.hash_fn 1 % tU.tab.length) []).countP
        (fun e => SD.equal_fn 1 e.key) ≤ 1) ∧
    ((zc_hashtable_remove SD tU (some 1)).1.nelem + 1 = tU.nelem ∧
      zc_hashtable_get SD (zc_hashtable_remove SD tU (some 1)).1 (some 1) = none) :=
  ⟨⟨by decide, by decide, by decide⟩,
    ⟨((remove_present_or_absent SD 1 (by decide)).1 ⟨1, 1, 8⟩ (by decide)
        (by decide)).1,
      ((remove_present_or_absent SD 1 (by decide)).1 ⟨1, 1, 8⟩ (by decide)
        (by decide)).2.1⟩⟩

/-- C7 (corrected): `Begin`/`Next` iteration enumerates exactly the entries of
the bucket array in ascending bucket order and, within each bucket, in chain
order from the head, then yields End — so every live entry is visited exactly
once (the `n`-th visited entry is the `n`-th entry of the flattened bucket
array, which has no duplicates).  Chain order from the head is
most-recently-*pushed* first; it coincides with most-recently-*inserted* first
only for buckets that no rehash has refilled, because a rehash walks an old
chain newest-first and head-pushes, reversing the relative order of entries
that land in the same new bucket (refuted concretely by
`iteration_after_rehash_visits_older_entry_first`). -/
theorem iteration_enumerates_flatten [DecidableEq K] [DecidableEq V]
    {t : Table K V} (hb : bucketsWf t) (hnd : t.tab.flatten.Nodup) :
    (∀ n, iterSeq t n = t.tab.flatten[n]?) ∧
    (∀ e ∈ t.tab.flatten, ∃ n, n < t.tab.flatten.length ∧ iterSeq t n = some e) ∧
    (∀ n, t.tab.flatten.length ≤ n → iterSeq t n = none) := by
  refine ⟨iterSeq_eq_flatten hb hnd, ?_, ?_⟩
  · intro e he
    rcases List.getElem_of_mem he with ⟨n, hlt, heq⟩
    refine ⟨n, hlt, ?_⟩
    rw [iterSeq_eq_flatten hb hnd, List.getElem?_eq_getElem hlt, heq]
  · intro n hn
    rw [iterSeq_eq_flatten hb hnd, List.getElem?_eq_none hn]

/-- Counterexample for C7: in `exC7` (keys 0, then 2, then 1 put into a
capacity-1 table; the third put rehashes), the entries for keys 0 and 2 share
bucket 0 after the rehash, and iteration visits the entry for key 0 — inserted
*first* — before the entry for key 2, refuting "within each bucket
most-recently-inserted entry first". -/
theorem iteration_after_rehash_visits_older_entry_first :
    exC7.tab.getD 0 [] = [⟨0, 0, 0⟩, ⟨2, 2, 2⟩] ∧
    iterSeq exC7 0 = some ⟨0, 0, 0⟩ ∧
    iterSeq exC7 1 = some ⟨2, 2, 2⟩ ∧
    iterSeq exC7 2 = some ⟨1, 1, 1⟩ ∧
    iterSeq exC7 3 = none ∧
    ¬ iterSeq exC7 0 = some ⟨2, 2, 2⟩ := by
  refine ⟨by decide, by decide, by decide, by decide, by decide, by decide⟩

/-- Witness for C7: the amended theorem applied to the concrete rehashed table
`exC7`. -/
theorem iteration_enumerates_flatten_witness :
    (bucketsWf exC7 ∧ exC7.tab.flatten.Nodup) ∧
    iterSeq exC7 1 = exC7.tab.flatten[1]? :=
  ⟨⟨by decide, by decide⟩,
    (iteration_enumerates_flatten (by decide) (by decide)).1 1⟩

end ZcHashtable
